import Mathlib

/-!
Verification of the encoding layer of the foster-btree repository
(`encoding.h`): poor man's normalized key (PMNK) extraction, endianness
swapping, and the encoder policy classes (`DummyEncoder`,
`AssignmentEncoder`, `InlineEncoder`, `TupleEncodingHelper`,
`PMNKEncoder`, `CompoundEncoder`).

The host memory model is little-endian, matching the source's own
description of the comparison representation: a scalar of byte width `w`
is a natural number below `256 ^ w`, whose in-memory bytes are given by
`toBytesLE` (least significant byte first).  Buffers are lists of bytes
(naturals below 256); an encoder returns the list of bytes it writes, and
the returned end pointer is the start pointer advanced by the length of
that list.
-/

/-- The `w` in-memory bytes of a scalar value on a little-endian host,
least significant first. -/
def toBytesLE : Nat → Nat → List Nat
  | 0, _ => []
  | w + 1, n => n % 256 :: toBytesLE w (n / 256)

/-- The value stored in a little-endian byte sequence (byte 0 least
significant): the native-order interpretation on the host. -/
def leVal : List Nat → Nat
  | [] => 0
  | b :: bs => b + 256 * leVal bs

/-- The value of a byte sequence read big-endian (first byte most
significant). -/
def beVal : List Nat → Nat
  | [] => 0
  | b :: bs => b * 256 ^ bs.length + beVal bs

/-- `swap_endianness` from `encoding.h`: the result's byte `k` is the
input's byte `sizeof(T) - k - 1`, so the result is the native (LE)
interpretation of the reversed byte sequence. -/
def swap_endianness (w u : Nat) : Nat :=
  leVal (toBytesLE w u).reverse

/-- `NoPrefixing` from `encoding.h`: returns its input unaltered. -/
def NoPrefixing {K : Type} (key : K) : K := key

/-- `PoormanPrefixing<K, PMNK_Type>` from `encoding.h` for scalar keys,
with `wK = sizeof(K)` and `wP = sizeof(PMNK_Type)`.  The union member
`prefix` aliases the first `wP` bytes of `swapped`, i.e. its value is
`swapped % 256 ^ wP` on the little-endian host; it is then endian-swapped
once more.  The `else` branch is dead (a `static_assert` forces
`sizeof(K) >= sizeof(PMNK_Type)`) but is kept for faithfulness. -/
def PoormanPrefixing (wK wP : Nat) (key : Nat) : Nat :=
  if wP ≤ wK then
    swap_endianness wP (swap_endianness wK key % 256 ^ wP)
  else
    key % 256 ^ wP

/-- `PoormanPrefixing<string, PMNK_Type>` from `encoding.h`: the union's
byte array holds the first `sizeof(PMNK_Type)` bytes of the key
(zero-padded on the right when the key is shorter, because `prefix` is
zeroed before the `memcpy`), read natively and endian-swapped once. -/
def PoormanPrefixingString (wP : Nat) (key : List Nat) : Nat :=
  let bytes := if key.length < wP then key ++ List.replicate (wP - key.length) 0
               else key.take wP
  swap_endianness wP (leVal bytes)

/-- `PMNKEncoder::get_pmnk` for scalar keys: `std::conditional` picks
`NoPrefixing` when the key type equals the PMNK type (`samePmnk`) and
`PoormanPrefixing` otherwise. -/
def PMNKEncoder.get_pmnk (samePmnk : Bool) (wK wP : Nat) (key : Nat) : Nat :=
  if samePmnk then NoPrefixing key else PoormanPrefixing wK wP key

/- ### Encodable values

`encoding.h` is parameterized at compile time over the encoded C++ type:
fixed-size scalars (`AssignmentEncoder`), `string`
(`InlineEncoder<string>`), and `std::tuple` of such types
(`InlineEncoder<std::tuple<Types...>>`, which recurses through
`TupleEncodingHelper`).  `Val` is the corresponding value universe (a
scalar carries its byte width) and `Ty` the corresponding type
descriptor, which drives the template dispatch in the operations that
receive only raw bytes (`decode`, `get_payload_length(void*)`). -/

inductive Val where
  | scalar (width value : Nat)
  | str (bytes : List Nat)
  | tup (fields : List Val)

inductive Ty where
  | scalar (width : Nat)
  | str
  | tup (fields : List Ty)

mutual

def tyOf : Val → Ty
  | .scalar w _ => .scalar w
  | .str _ => .str
  | .tup fs => .tup (tyOfFields fs)

def tyOfFields : List Val → List Ty
  | [] => []
  | f :: fs => tyOf f :: tyOfFields fs

end

mutual

/-- A value representable by the corresponding C++ object: a `w`-byte
scalar holds a value below `256 ^ w` and string bytes are bytes.  The
string length bound is the genuine side condition of the wire format: the
length header is a `uint16_t`. -/
def validVal : Val → Bool
  | .scalar w v => v < 256 ^ w
  | .str s => s.all (fun b => b < 256) && s.length < 65536
  | .tup fs => validFields fs

def validFields : List Val → Bool
  | [] => true
  | f :: fs => validVal f && validFields fs

end

/- ### The encoder policy classes -/

/-- `AssignmentEncoder<T>::get_payload_length` (both overloads return
`sizeof(T)`). -/
def AssignmentEncoder.get_payload_length (w : Nat) : Nat := w

/-- `AssignmentEncoder<T>::encode`: placement-`new` of the value at
`dest`, i.e. the `w` native-order bytes of the value; returns
`dest + sizeof(T)`. -/
def AssignmentEncoder.encode (w value : Nat) : List Nat := toBytesLE w value

/-- `AssignmentEncoder<T>::decode`: reads `*(const T*)src` into the
output when it is non-null (`want`), and returns `src + sizeof(T)`
either way. -/
def AssignmentEncoder.decode (w : Nat) (src : List Nat) (want : Bool) :
    Option Nat × Nat :=
  (if want then some (leVal (src.take w)) else none, w)

/-- `InlineEncoder<string>::get_payload_length(const string&)`:
`sizeof(LengthType) + value.length()` with `LengthType = uint16_t`. -/
def InlineEncoderString.get_payload_length (value : List Nat) : Nat :=
  2 + value.length

/-- `InlineEncoder<string>::get_payload_length(void*)`: the stored 16-bit
length plus the header size. -/
def InlineEncoderString.get_payload_length_bytes (p : List Nat) : Nat :=
  leVal (p.take 2) + 2

/-- `InlineEncoder<string>::encode`: stores `value.length()` into the
16-bit little-endian header (`toBytesLE 2` keeps exactly the low 16 bits,
as the `uint16_t` store does), then the raw bytes; returns
`dest + 2 + value.length()`. -/
def InlineEncoderString.encode (value : List Nat) : List Nat :=
  toBytesLE 2 value.length ++ value

/-- `InlineEncoder<string>::decode`: reads the 16-bit length, assigns the
following bytes to the output when it is non-null (`want`), and returns
`src + sizeof(LengthType) + length` either way. -/
def InlineEncoderString.decode (src : List Nat) (want : Bool) :
    Option (List Nat) × Nat :=
  (if want then some ((src.drop 2).take (leVal (src.take 2))) else none,
   2 + leVal (src.take 2))

mutual

/-- `InlineEncoder<T>::get_payload_length` on a decoded value: template
dispatch over the three supported shapes. -/
def InlineEncoder.get_payload_length : Val → Nat
  | .scalar w _ => AssignmentEncoder.get_payload_length w
  | .str s => InlineEncoderString.get_payload_length s
  | .tup fs => TupleEncodingHelper.get_payload_length fs

/-- `TupleEncodingHelper::get_payload_length(const tuple&)`: the helper
for field `N` returns `NextEncoder::get_payload_length(t) +
FieldEnc<N>::get_payload_length(get<N>(t))`; recursion stops at the tuple
size with 0. -/
def TupleEncodingHelper.get_payload_length : List Val → Nat
  | [] => 0
  | f :: fs =>
    TupleEncodingHelper.get_payload_length fs + InlineEncoder.get_payload_length f

end

mutual

/-- `InlineEncoder<T>::get_payload_length(void*)` on encoded bytes. -/
def InlineEncoder.get_payload_length_bytes : Ty → List Nat → Nat
  | .scalar w, _ => AssignmentEncoder.get_payload_length w
  | .str, p => InlineEncoderString.get_payload_length_bytes p
  | .tup tys, p => TupleEncodingHelper.get_payload_length_bytes tys p

/-- `TupleEncodingHelper::get_payload_length(void*)`: the helper for
field `N` computes `flen`, advances `ptr` by `flen`, and returns only
`NextEncoder::get_payload_length(charptr)` — `flen` itself is *not* added
to the result (encoding.h lines 298-305). -/
def TupleEncodingHelper.get_payload_length_bytes : List Ty → List Nat → Nat
  | [], _ => 0
  | ty :: tys, p =>
    TupleEncodingHelper.get_payload_length_bytes tys
      (p.drop (InlineEncoder.get_payload_length_bytes ty p))

end

mutual

/-- `InlineEncoder<T>::encode`: the bytes written at `dest`; the returned
end pointer is `dest` advanced by their number. -/
def InlineEncoder.encode : Val → List Nat
  | .scalar w v => AssignmentEncoder.encode w v
  | .str s => InlineEncoderString.encode s
  | .tup fs => TupleEncodingHelper.encode fs

/-- `TupleEncodingHelper::encode`: encodes field `N` at `dest` and the
remaining fields at the returned pointer. -/
def TupleEncodingHelper.encode : List Val → List Nat
  | [] => []
  | f :: fs => InlineEncoder.encode f ++ TupleEncodingHelper.encode fs

end

mutual

/-- `InlineEncoder<T>::decode`: returns the value written into the output
(`none` models a null output pointer, which suppresses the write), and
the number of bytes consumed (the returned end pointer minus `src`).  In
the tuple case the source allocates a fresh unowned tuple when the caller
passes a null output and decodes into it, so the fields are decoded — and
the bytes consumed — regardless of `want`. -/
def InlineEncoder.decode : Ty → List Nat → Bool → Option Val × Nat
  | .scalar w, src, want =>
    ((AssignmentEncoder.decode w src want).1.map (Val.scalar w),
     (AssignmentEncoder.decode w src want).2)
  | .str, src, want =>
    ((InlineEncoderString.decode src want).1.map Val.str,
     (InlineEncoderString.decode src want).2)
  | .tup tys, src, want =>
    (if want then some (Val.tup (TupleEncodingHelper.decode tys src).1) else none,
     (TupleEncodingHelper.decode tys src).2)

/-- `TupleEncodingHelper::decode`: decodes field `N` into
`&std::get<N>(*t)` (always a non-null output) and the remaining fields at
the returned pointer.  Field decodes always produce a value, so the
`getD` default is never taken. -/
def TupleEncodingHelper.decode : List Ty → List Nat → List Val × Nat
  | [], _ => ([], 0)
  | ty :: tys, src =>
    let fr := InlineEncoder.decode ty src true
    let rest := TupleEncodingHelper.decode tys (src.drop fr.2)
    (fr.1.getD (Val.tup []) :: rest.1, fr.2 + rest.2)

end

/-- An encoder policy as used by `CompoundEncoder`: the four operations
of the encoder contract. -/
structure Encoder (T : Type) where
  get_payload_length : T → Nat
  get_payload_length_bytes : List Nat → Nat
  encode : T → List Nat
  decode : List Nat → Bool → Option T × Nat

/-- `DummyEncoder<T>`: zero length, writes nothing, decodes nothing, and
never advances the pointer. -/
def DummyEncoder (T : Type) : Encoder T where
  get_payload_length := fun _ => 0
  get_payload_length_bytes := fun _ => 0
  encode := fun _ => []
  decode := fun _ _ => (none, 0)

/-- `CompoundEncoder`'s `ActualKeyEncoder`: `std::conditional` replaces
the key encoder by `DummyEncoder` when the key type equals the PMNK type
(`samePmnk`). -/
def CompoundEncoder.ActualKeyEncoder {K : Type} (samePmnk : Bool)
    (keyEnc : Encoder K) : Encoder K :=
  if samePmnk then DummyEncoder K else keyEnc

/-- `CompoundEncoder::get_payload_length(key, value)`. -/
def CompoundEncoder.get_payload_length {K V : Type} (samePmnk : Bool)
    (keyEnc : Encoder K) (valEnc : Encoder V) (key : K) (value : V) : Nat :=
  (CompoundEncoder.ActualKeyEncoder samePmnk keyEnc).get_payload_length key
    + valEnc.get_payload_length value

/-- `CompoundEncoder::get_payload_length(void*)`. -/
def CompoundEncoder.get_payload_length_bytes {K V : Type} (samePmnk : Bool)
    (keyEnc : Encoder K) (valEnc : Encoder V) (addr : List Nat) : Nat :=
  let ksize := (CompoundEncoder.ActualKeyEncoder samePmnk keyEnc).get_payload_length_bytes addr
  ksize + valEnc.get_payload_length_bytes (addr.drop ksize)

/-- `CompoundEncoder::encode`: the key encoding (possibly empty) followed
by the value encoding. -/
def CompoundEncoder.encode {K V : Type} (samePmnk : Bool) (keyEnc : Encoder K)
    (valEnc : Encoder V) (key : K) (value : V) : List Nat :=
  (CompoundEncoder.ActualKeyEncoder samePmnk keyEnc).encode key ++ valEnc.encode value

/-- `CompoundEncoder::decode`: decodes the key then the value; when the
key type equals the PMNK type and a key output is requested, the key is
assigned from `*pmnk` instead, after `assert<1>(pmnk, "PMNK required to
decode this key")` — modelled by returning `none` (assertion failure)
when `pmnk` is null.  In the source `pmnk` is an optional argument
defaulting to `nullptr`. -/
def CompoundEncoder.decode {K V : Type} (samePmnk : Bool) (keyEnc : Encoder K)
    (valEnc : Encoder V) (src : List Nat) (wantKey wantValue : Bool)
    (pmnk : Option K) : Option (Option K × Option V) :=
  let kr := (CompoundEncoder.ActualKeyEncoder samePmnk keyEnc).decode src wantKey
  let vr := valEnc.decode (src.drop kr.2) wantValue
  if wantKey && samePmnk then
    match pmnk with
    | none => none
    | some pk => some (some pk, vr.1)
  else
    some (kr.1, vr.1)

/- ### Basic lemmas about the byte-level model -/

theorem toBytesLE_length (w : Nat) : ∀ n, (toBytesLE w n).length = w := by
  induction w with
  | zero => intro n; rfl
  | succ w ih => intro n; simp [toBytesLE, ih]

theorem toBytesLE_lt (w : Nat) : ∀ n, ∀ b ∈ toBytesLE w n, b < 256 := by
  induction w with
  | zero => intro n b hb; simp [toBytesLE] at hb
  | succ w ih =>
    intro n b hb
    simp only [toBytesLE, List.mem_cons] at hb
    rcases hb with h | h
    · subst h; exact Nat.mod_lt _ (by norm_num)
    · exact ih _ b h

theorem leVal_toBytesLE (w : Nat) : ∀ n, n < 256 ^ w → leVal (toBytesLE w n) = n := by
  induction w with
  | zero => intro n h; interval_cases n; rfl
  | succ w ih =>
    intro n h
    have hdiv : n / 256 < 256 ^ w := by
      rw [Nat.div_lt_iff_lt_mul (by norm_num)]
      calc n < 256 ^ (w + 1) := h
        _ = 256 ^ w * 256 := by ring
    simp only [toBytesLE, leVal, ih _ hdiv]
    omega

theorem toBytesLE_leVal : ∀ bs : List Nat, (∀ b ∈ bs, b < 256) →
    toBytesLE bs.length (leVal bs) = bs := by
  intro bs
  induction bs with
  | nil => intro _; rfl
  | cons b bs ih =>
    intro hv
    have hb : b < 256 := hv b (List.mem_cons_self b bs)
    have hmod : (b + 256 * leVal bs) % 256 = b := by omega
    have hdiv : (b + 256 * leVal bs) / 256 = leVal bs := by omega
    simp only [List.length_cons, toBytesLE, leVal, hmod, hdiv]
    rw [ih (fun x hx => hv x (List.mem_cons_of_mem b hx))]

theorem leVal_lt : ∀ bs : List Nat, (∀ b ∈ bs, b < 256) →
    leVal bs < 256 ^ bs.length := by
  intro bs
  induction bs with
  | nil => intro _; simp [leVal]
  | cons b bs ih =>
    intro hv
    have hb : b < 256 := hv b (List.mem_cons_self b bs)
    have ht := ih (fun x hx => hv x (List.mem_cons_of_mem b hx))
    simp only [leVal, List.length_cons, pow_succ]
    calc b + 256 * leVal bs < 256 + 256 * leVal bs := by omega
      _ = 256 * (leVal bs + 1) := by ring
      _ ≤ 256 * 256 ^ bs.length := by
          exact Nat.mul_le_mul_left 256 (Nat.succ_le_of_lt ht)
      _ = 256 ^ bs.length * 256 := by ring

theorem leVal_append (xs ys : List Nat) :
    leVal (xs ++ ys) = leVal xs + 256 ^ xs.length * leVal ys := by
  induction xs with
  | nil => simp [leVal]
  | cons x xs ih =>
    have h1 : leVal ((x :: xs) ++ ys) = x + 256 * leVal (xs ++ ys) := rfl
    have h2 : leVal (x :: xs) = x + 256 * leVal xs := rfl
    rw [h1, h2, ih, List.length_cons, pow_succ]
    ring

theorem leVal_reverse (bs : List Nat) : leVal bs.reverse = beVal bs := by
  induction bs with
  | nil => rfl
  | cons b bs ih =>
    simp only [List.reverse_cons, leVal_append, beVal, ih, List.length_reverse, leVal]
    ring

theorem beVal_reverse (bs : List Nat) : beVal bs.reverse = leVal bs := by
  have h := leVal_reverse bs.reverse
  rw [List.reverse_reverse] at h
  exact h.symm

theorem leVal_mod (p : Nat) : ∀ bs : List Nat, (∀ b ∈ bs, b < 256) →
    leVal bs % 256 ^ p = leVal (bs.take p) := by
  induction p with
  | zero => intro bs _; simp [leVal, Nat.mod_one]
  | succ p ih =>
    intro bs hv
    cases bs with
    | nil => simp [leVal]
    | cons b bs =>
      have hb : b < 256 := hv b (List.mem_cons_self b bs)
      have ht := ih bs (fun x hx => hv x (List.mem_cons_of_mem b hx))
      simp only [leVal, List.take_succ_cons]
      rw [pow_succ, mul_comm (256 ^ p) 256, Nat.mod_mul, Nat.add_mul_mod_self_left,
        Nat.mod_eq_of_lt hb]
      congr 1
      have : (b + 256 * leVal bs) / 256 = leVal bs := by omega
      rw [this, ht]

theorem leVal_div (p : Nat) : ∀ bs : List Nat, (∀ b ∈ bs, b < 256) →
    leVal bs / 256 ^ p = leVal (bs.drop p) := by
  induction p with
  | zero => intro bs _; simp
  | succ p ih =>
    intro bs hv
    cases bs with
    | nil => simp [leVal]
    | cons b bs =>
      have hb : b < 256 := hv b (List.mem_cons_self b bs)
      have ht := ih bs (fun x hx => hv x (List.mem_cons_of_mem b hx))
      simp only [leVal, List.drop_succ_cons]
      rw [pow_succ, mul_comm (256 ^ p) 256, ← Nat.div_div_eq_div_mul]
      have : (b + 256 * leVal bs) / 256 = leVal bs := by omega
      rw [this, ht]

theorem swap_endianness_leVal (bs : List Nat) (hv : ∀ b ∈ bs, b < 256) :
    swap_endianness bs.length (leVal bs) = beVal bs := by
  unfold swap_endianness
  rw [toBytesLE_leVal bs hv, leVal_reverse]

theorem swap_endianness_eq_beVal (w u : Nat) :
    swap_endianness w u = beVal (toBytesLE w u) := by
  unfold swap_endianness
  rw [leVal_reverse]

theorem toBytesLE_reverse_lt (w n : Nat) : ∀ b ∈ (toBytesLE w n).reverse, b < 256 := by
  intro b hb
  exact toBytesLE_lt w n b (List.mem_reverse.mp hb)

theorem beVal_lt (bs : List Nat) (hv : ∀ b ∈ bs, b < 256) :
    beVal bs < 256 ^ bs.length := by
  rw [← leVal_reverse, ← List.length_reverse]
  exact leVal_lt bs.reverse (fun b hb => hv b (List.mem_reverse.mp hb))

/-- The scalar `PoormanPrefixing` computes the big-endian value of the
`wP` most-significant bytes of the key. -/
theorem PoormanPrefixing_take (wK wP key : Nat) (hw : wP ≤ wK) :
    PoormanPrefixing wK wP key = beVal ((toBytesLE wK key).reverse.take wP) := by
  unfold PoormanPrefixing
  rw [if_pos hw]
  have hv := toBytesLE_reverse_lt wK key
  have hlen : (toBytesLE wK key).reverse.length = wK := by
    rw [List.length_reverse, toBytesLE_length]
  have h1 : swap_endianness wK key = leVal (toBytesLE wK key).reverse := rfl
  rw [h1, leVal_mod wP _ hv]
  have hv2 : ∀ b ∈ (toBytesLE wK key).reverse.take wP, b < 256 :=
    fun b hb => hv b (List.mem_of_mem_take hb)
  have hlen2 : ((toBytesLE wK key).reverse.take wP).length = wP := by
    rw [List.length_take, hlen]
    omega
  have := swap_endianness_leVal ((toBytesLE wK key).reverse.take wP) hv2
  rwa [hlen2] at this

/-- The scalar `PoormanPrefixing` equals the key shifted right so that only
its `wP` most-significant bytes remain. -/
theorem PoormanPrefixing_div (wK wP key : Nat) (hw : wP ≤ wK) (hk : key < 256 ^ wK) :
    PoormanPrefixing wK wP key = key / 256 ^ (wK - wP) := by
  rw [PoormanPrefixing_take wK wP key hw, List.take_reverse, beVal_reverse,
    ← leVal_div _ _ (toBytesLE_lt wK key), leVal_toBytesLE wK key hk, toBytesLE_length]

/-- C10: `swap_endianness` is an involution: for every byte width `w` and
every representable value `u` of a `w`-byte scalar type, swapping the
endianness twice restores `u`.  This is what makes the double-swap PMNK
extraction well-defined regardless of the direction of the first swap. -/
theorem swap_endianness_involutive (w u : Nat) (h : u < 256 ^ w) :
    swap_endianness w (swap_endianness w u) = u := by
  have hv := toBytesLE_reverse_lt w u
  have hlen : (toBytesLE w u).reverse.length = w := by
    rw [List.length_reverse, toBytesLE_length]
  have hs := swap_endianness_leVal (toBytesLE w u).reverse hv
  rw [hlen] at hs
  calc swap_endianness w (swap_endianness w u)
      = swap_endianness w (leVal (toBytesLE w u).reverse) := rfl
    _ = beVal (toBytesLE w u).reverse := hs
    _ = leVal (toBytesLE w u) := beVal_reverse _
    _ = u := leVal_toBytesLE w u h

theorem swap_endianness_involutive_witness :
    305419896 < 256 ^ 4 ∧
    swap_endianness 4 (swap_endianness 4 305419896) = 305419896 :=
  ⟨by decide, swap_endianness_involutive 4 305419896 (by decide)⟩

/-- C5: for a scalar key strictly wider than the PMNK type (or of equal
width), the extracted PMNK equals the `wP` most-significant bytes of the
big-endian (order-preserving) representation of the key, byte-reversed
back to native little-endian order; equivalently, it is the key with its
low `wK - wP` bytes shifted away, so the native unsigned value of the
PMNK is monotone in the key. -/
theorem PoormanPrefixing_top_bytes (wK wP key : Nat) (hw : wP ≤ wK)
    (hk : key < 256 ^ wK) :
    PoormanPrefixing wK wP key
      = leVal (((toBytesLE wK key).reverse.take wP).reverse)
  ∧ PoormanPrefixing wK wP key = key / 256 ^ (wK - wP) := by
  constructor
  · rw [PoormanPrefixing_take wK wP key hw, leVal_reverse]
  · exact PoormanPrefixing_div wK wP key hw hk

theorem PoormanPrefixing_top_bytes_witness :
    2 ≤ 8 ∧ 81985529216486895 < 256 ^ 8 ∧
    (PoormanPrefixing 8 2 81985529216486895
       = leVal (((toBytesLE 8 81985529216486895).reverse.take 2).reverse)
     ∧ PoormanPrefixing 8 2 81985529216486895 = 81985529216486895 / 256 ^ (8 - 2)) :=
  ⟨by decide, by decide,
    PoormanPrefixing_top_bytes 8 2 81985529216486895 (by decide) (by decide)⟩

/- ### String PMNK: padding characterization and order preservation -/

theorem padBytes_length (n : Nat) (s : List Nat) :
    (s.take n ++ List.replicate (n - s.length) 0).length = n := by
  rw [List.length_append, List.length_take, List.length_replicate]
  omega

theorem padBytes_valid (n : Nat) (s : List Nat) (hb : ∀ b ∈ s, b < 256) :
    ∀ b ∈ s.take n ++ List.replicate (n - s.length) 0, b < 256 := by
  intro b hmem
  rcases List.mem_append.mp hmem with h | h
  · exact hb b (List.mem_of_mem_take h)
  · rw [List.eq_of_mem_replicate h]
    norm_num

theorem padBytes_cons (k : Nat) (a : Nat) (s : List Nat) :
    ((a :: s).take (k + 1) ++ List.replicate ((k + 1) - (a :: s).length) 0)
      = a :: (s.take k ++ List.replicate (k - s.length) 0) := by
  rw [List.take_succ_cons, List.length_cons, Nat.succ_sub_succ, List.cons_append]

theorem beVal_replicate_zero (n : Nat) : beVal (List.replicate n 0) = 0 := by
  induction n with
  | zero => rfl
  | succ n ih => simp [List.replicate_succ, beVal, ih]

/-- The string `PoormanPrefixing` computes the big-endian value of the
first `wP` key bytes, zero-padded on the right. -/
theorem PoormanPrefixingString_beVal (wP : Nat) (s : List Nat)
    (hb : ∀ b ∈ s, b < 256) :
    PoormanPrefixingString wP s
      = beVal (s.take wP ++ List.replicate (wP - s.length) 0) := by
  unfold PoormanPrefixingString
  have hbytes : (if s.length < wP then s ++ List.replicate (wP - s.length) 0
                 else s.take wP)
      = s.take wP ++ List.replicate (wP - s.length) 0 := by
    by_cases h : s.length < wP
    · rw [if_pos h, List.take_of_length_le (Nat.le_of_lt h)]
    · rw [if_neg h]
      have : wP - s.length = 0 := by omega
      rw [this, List.replicate_zero, List.append_nil]
  simp only [hbytes]
  have hv := padBytes_valid wP s hb
  have := swap_endianness_leVal (s.take wP ++ List.replicate (wP - s.length) 0) hv
  rwa [padBytes_length] at this

/-- C4: for every byte-string key, the PMNK returned by the string
extractor is the native unsigned value whose most significant byte is the
first byte of the key: the first `sizeof(PMNK)` bytes of the key,
zero-padded on the right when the key is shorter, read big-endian (which
is what the endianness round-trip of the union bytes produces). -/
theorem string_pmnk_pad_big_endian (wP : Nat) (s : List Nat)
    (hb : ∀ b ∈ s, b < 256) :
    PoormanPrefixingString wP s
      = beVal (s.take wP ++ List.replicate (wP - s.length) 0) :=
  PoormanPrefixingString_beVal wP s hb

theorem string_pmnk_pad_big_endian_witness :
    (∀ b ∈ [202, 254], b < 256) ∧
    PoormanPrefixingString 4 [202, 254]
      = beVal ([202, 254].take 4 ++ List.replicate (4 - [202, 254].length) 0) :=
  ⟨by decide, string_pmnk_pad_big_endian 4 [202, 254] (by decide)⟩

/-- Monotonicity of the zero-padded big-endian value with respect to the
lexicographic order on byte strings. -/
theorem beVal_pad_mono : ∀ {s1 s2 : List Nat}, List.Lex (· < ·) s1 s2 →
    (∀ b ∈ s1, b < 256) → ∀ n : Nat,
    beVal (s1.take n ++ List.replicate (n - s1.length) 0)
      ≤ beVal (s2.take n ++ List.replicate (n - s2.length) 0) := by
  intro s1 s2 h
  induction h with
  | @nil a l =>
    intro _ n
    simp only [List.take_nil, List.nil_append, List.length_nil, Nat.sub_zero,
      beVal_replicate_zero]
    exact Nat.zero_le _
  | @cons a l₁ l₂ h ih =>
    intro hb n
    cases n with
    | zero => simp
    | succ k =>
      rw [padBytes_cons, padBytes_cons]
      simp only [beVal, padBytes_length]
      have ht := ih (fun x hx => hb x (List.mem_cons_of_mem a hx)) k
      omega
  | @rel a₁ l₁ a₂ l₂ hab =>
    intro hb n
    cases n with
    | zero => simp
    | succ k =>
      rw [padBytes_cons, padBytes_cons]
      simp only [beVal, padBytes_length]
      have h1 : beVal (l₁.take k ++ List.replicate (k - l₁.length) 0) < 256 ^ k := by
        have := beVal_lt (l₁.take k ++ List.replicate (k - l₁.length) 0)
          (padBytes_valid k l₁ (fun x hx => hb x (List.mem_cons_of_mem a₁ hx)))
        rwa [padBytes_length] at this
      have h2 : (a₁ + 1) * 256 ^ k ≤ a₂ * 256 ^ k :=
        Nat.mul_le_mul_right _ (Nat.succ_le_of_lt hab)
      have h3 : (a₁ + 1) * 256 ^ k = a₁ * 256 ^ k + 256 ^ k := by ring
      omega

/-- C1: PMNK extraction is order-preserving.  For scalar keys (under
either extractor `std::conditional` can pick), `k1 < k2` implies
`get_pmnk k1 ≤ get_pmnk k2`; for byte-string keys, lexicographic order of
the strings implies unsigned order of the string PMNKs.  Consequently a
strict PMNK inequality never contradicts full-key order — it forces the
same strict order on the full keys — so only PMNK ties require a
full-key comparison (equal full keys trivially have equal PMNKs, the
extractors being functions of the key). -/
theorem pmnk_order_preserving :
    (∀ (samePmnk : Bool) (wK wP k1 k2 : Nat), wP ≤ wK → k1 < 256 ^ wK →
      k2 < 256 ^ wK → k1 < k2 →
      PMNKEncoder.get_pmnk samePmnk wK wP k1 ≤ PMNKEncoder.get_pmnk samePmnk wK wP k2)
  ∧ (∀ (wP : Nat) (s1 s2 : List Nat), (∀ b ∈ s1, b < 256) → (∀ b ∈ s2, b < 256) →
      List.Lex (· < ·) s1 s2 →
      PoormanPrefixingString wP s1 ≤ PoormanPrefixingString wP s2)
  ∧ (∀ (samePmnk : Bool) (wK wP k1 k2 : Nat), wP ≤ wK → k1 < 256 ^ wK →
      k2 < 256 ^ wK →
      PMNKEncoder.get_pmnk samePmnk wK wP k1 < PMNKEncoder.get_pmnk samePmnk wK wP k2 →
      k1 < k2)
  ∧ (∀ (wP : Nat) (s1 s2 : List Nat), (∀ b ∈ s1, b < 256) → (∀ b ∈ s2, b < 256) →
      PoormanPrefixingString wP s1 < PoormanPrefixingString wP s2 →
      ¬ List.Lex (· < ·) s2 s1 ∧ s1 ≠ s2) := by
  have scalar : ∀ (samePmnk : Bool) (wK wP k1 k2 : Nat), wP ≤ wK → k1 < 256 ^ wK →
      k2 < 256 ^ wK → k1 < k2 →
      PMNKEncoder.get_pmnk samePmnk wK wP k1 ≤ PMNKEncoder.get_pmnk samePmnk wK wP k2 := by
    intro samePmnk wK wP k1 k2 hw h1 h2 hlt
    cases samePmnk with
    | true =>
      simp only [PMNKEncoder.get_pmnk, if_pos, NoPrefixing]
      exact Nat.le_of_lt hlt
    | false =>
      simp only [PMNKEncoder.get_pmnk, Bool.false_eq_true, if_neg]
      rw [PoormanPrefixing_div wK wP k1 hw h1, PoormanPrefixing_div wK wP k2 hw h2]
      exact Nat.div_le_div_right (Nat.le_of_lt hlt)
  have stringMono : ∀ (wP : Nat) (s1 s2 : List Nat), (∀ b ∈ s1, b < 256) →
      (∀ b ∈ s2, b < 256) → List.Lex (· < ·) s1 s2 →
      PoormanPrefixingString wP s1 ≤ PoormanPrefixingString wP s2 := by
    intro wP s1 s2 hb1 hb2 hlex
    rw [PoormanPrefixingString_beVal wP s1 hb1, PoormanPrefixingString_beVal wP s2 hb2]
    exact beVal_pad_mono hlex hb1 wP
  refine ⟨scalar, stringMono, ?_, ?_⟩
  · intro samePmnk wK wP k1 k2 hw h1 h2 hpm
    by_contra hcon
    have hk : k2 ≤ k1 := Nat.le_of_not_lt hcon
    rcases Nat.eq_or_lt_of_le hk with heq | hlt
    · subst heq
      exact Nat.lt_irrefl _ hpm
    · have := scalar samePmnk wK wP k2 k1 hw h2 h1 hlt
      omega
  · intro wP s1 s2 hb1 hb2 hpm
    constructor
    · intro hlex
      have := stringMono wP s2 s1 hb2 hb1 hlex
      omega
    · intro heq
      subst heq
      exact Nat.lt_irrefl _ hpm

theorem pmnk_order_preserving_witness :
    (1 ≤ 2 ∧ 300 < 256 ^ 2 ∧ 301 < 256 ^ 2 ∧ 300 < 301 ∧
      PMNKEncoder.get_pmnk false 2 1 300 ≤ PMNKEncoder.get_pmnk false 2 1 301) ∧
    ((∀ b ∈ [1, 5], b < 256) ∧ (∀ b ∈ [2], b < 256) ∧ List.Lex (· < ·) [1, 5] [2] ∧
      PoormanPrefixingString 2 [1, 5] ≤ PoormanPrefixingString 2 [2]) :=
  ⟨⟨by decide, by decide, by decide, by decide,
    pmnk_order_preserving.1 false 2 1 300 301 (by decide) (by decide) (by decide)
      (by decide)⟩,
   ⟨by decide, by decide, by decide,
    pmnk_order_preserving.2.1 2 [1, 5] [2] (by decide) (by decide) (by decide)⟩⟩

/- ### Encoder layer: length and round-trip lemmas -/

mutual

theorem encode_length : ∀ v : Val,
    (InlineEncoder.encode v).length = InlineEncoder.get_payload_length v
  | .scalar w v => by
    simp [InlineEncoder.encode, InlineEncoder.get_payload_length,
      AssignmentEncoder.encode, AssignmentEncoder.get_payload_length, toBytesLE_length]
  | .str s => by
    simp [InlineEncoder.encode, InlineEncoder.get_payload_length,
      InlineEncoderString.encode, InlineEncoderString.get_payload_length,
      toBytesLE_length]
  | .tup fs => by
    simp only [InlineEncoder.encode, InlineEncoder.get_payload_length]
    exact encodeFields_length fs

theorem encodeFields_length : ∀ fs : List Val,
    (TupleEncodingHelper.encode fs).length = TupleEncodingHelper.get_payload_length fs
  | [] => by simp [TupleEncodingHelper.encode, TupleEncodingHelper.get_payload_length]
  | f :: fs => by
    simp only [TupleEncodingHelper.encode, TupleEncodingHelper.get_payload_length,
      List.length_append]
    rw [encode_length f, encodeFields_length fs]
    omega

end

mutual

theorem decode_encode : ∀ (v : Val) (rest : List Nat), validVal v = true →
    InlineEncoder.decode (tyOf v) (InlineEncoder.encode v ++ rest) true
      = (some v, (InlineEncoder.encode v).length)
  | .scalar w v, rest, hv => by
    simp only [validVal, decide_eq_true_eq] at hv
    simp only [tyOf, InlineEncoder.encode, InlineEncoder.decode,
      AssignmentEncoder.encode, AssignmentEncoder.decode, if_pos, Option.map_some]
    rw [List.take_left' (toBytesLE_length w v), leVal_toBytesLE w v hv,
      toBytesLE_length]
    rfl
  | .str s, rest, hv => by
    simp only [validVal, Bool.and_eq_true, List.all_eq_true, decide_eq_true_eq] at hv
    simp only [tyOf, InlineEncoder.encode, InlineEncoder.decode,
      InlineEncoderString.encode, InlineEncoderString.decode, if_pos,
      Option.map_some, List.append_assoc]
    rw [List.take_left' (toBytesLE_length 2 s.length),
      leVal_toBytesLE 2 s.length hv.2,
      List.drop_left' (toBytesLE_length 2 s.length),
      List.take_left' rfl, List.length_append, toBytesLE_length]
    rfl
  | .tup fs, rest, hv => by
    simp only [validVal] at hv
    simp only [tyOf, InlineEncoder.encode, InlineEncoder.decode]
    rw [decodeFields_encode fs rest hv]
    simp

theorem decodeFields_encode : ∀ (fs : List Val) (rest : List Nat),
    validFields fs = true →
    TupleEncodingHelper.decode (tyOfFields fs) (TupleEncodingHelper.encode fs ++ rest)
      = (fs, (TupleEncodingHelper.encode fs).length)
  | [], rest, _ => by
    simp [tyOfFields, TupleEncodingHelper.encode, TupleEncodingHelper.decode]
  | f :: fs, rest, hv => by
    simp only [validFields, Bool.and_eq_true] at hv
    simp only [tyOfFields, TupleEncodingHelper.encode, TupleEncodingHelper.decode,
      List.append_assoc]
    rw [decode_encode f (TupleEncodingHelper.encode fs ++ rest) hv.1]
    simp only [List.drop_left' rfl]
    rw [decodeFields_encode fs rest hv.2]
    simp [List.length_append]

end

/-- The number of bytes a decode consumes does not depend on whether an
output was requested. -/
theorem decode_snd_independent_of_want (ty : Ty) (src : List Nat) :
    (InlineEncoder.decode ty src false).2 = (InlineEncoder.decode ty src true).2 := by
  cases ty <;>
    simp [InlineEncoder.decode, AssignmentEncoder.decode, InlineEncoderString.decode]

theorem encodeFields_flatten (fs : List Val) :
    TupleEncodingHelper.encode fs = (fs.map InlineEncoder.encode).flatten := by
  induction fs with
  | nil => simp [TupleEncodingHelper.encode]
  | cons f fs ih => simp [TupleEncodingHelper.encode, ih]

theorem payloadFields_sum (fs : List Val) :
    TupleEncodingHelper.get_payload_length fs
      = (fs.map InlineEncoder.get_payload_length).sum := by
  induction fs with
  | nil => simp [TupleEncodingHelper.get_payload_length]
  | cons f fs ih =>
    simp only [TupleEncodingHelper.get_payload_length, List.map_cons, List.sum_cons, ih]
    omega

/- ### The claims -/

/-- C2 fails on the code: `TupleEncodingHelper::get_payload_length(void*)`
advances past field `N` but forgets to add `flen` to its result, so the
byte-side overload returns 0 for every tuple, while the value-side
overload (and the number of bytes `encode` actually writes) is the sum of
the field lengths — here 8 for a tuple holding one 8-byte scalar. -/
theorem tuple_get_payload_length_bytes_zero :
    InlineEncoder.get_payload_length (Val.tup [Val.scalar 8 42]) = 8
  ∧ (InlineEncoder.encode (Val.tup [Val.scalar 8 42])).length = 8
  ∧ InlineEncoder.get_payload_length_bytes (Ty.tup [Ty.scalar 8])
      (InlineEncoder.encode (Val.tup [Val.scalar 8 42])) = 0 := by
  refine ⟨?_, ?_, ?_⟩
  · simp [InlineEncoder.get_payload_length, TupleEncodingHelper.get_payload_length,
      AssignmentEncoder.get_payload_length]
  · simp [InlineEncoder.encode, TupleEncodingHelper.encode, AssignmentEncoder.encode,
      toBytesLE_length]
  · simp [InlineEncoder.get_payload_length_bytes,
      TupleEncodingHelper.get_payload_length_bytes]

/-- C3: byte-string encoding round-trips through the wire format.  For a
string shorter than `2 ^ 16`, `encode` writes the 16-bit little-endian
length (which reads back as `s.length`) followed by the raw bytes and
returns `dest + 2 + s.length`; `decode` with a non-null output recovers
exactly `s` and returns the same end pointer; and
`get_payload_length(s) = 2 + s.length`. -/
theorem string_encoding_wire_format (s rest : List Nat) (h : s.length < 65536) :
    InlineEncoderString.encode s = toBytesLE 2 s.length ++ s
  ∧ (InlineEncoderString.encode s).length = 2 + s.length
  ∧ leVal ((InlineEncoderString.encode s).take 2) = s.length
  ∧ InlineEncoderString.decode (InlineEncoderString.encode s ++ rest) true
      = (some s, 2 + s.length)
  ∧ InlineEncoderString.get_payload_length s = 2 + s.length := by
  have hlen : (toBytesLE 2 s.length).length = 2 := toBytesLE_length 2 s.length
  refine ⟨rfl, ?_, ?_, ?_, rfl⟩
  · simp [InlineEncoderString.encode, toBytesLE_length]
  · show leVal ((toBytesLE 2 s.length ++ s).take 2) = s.length
    rw [List.take_left' hlen, leVal_toBytesLE 2 s.length h]
  · simp only [InlineEncoderString.encode, InlineEncoderString.decode,
      List.append_assoc]
    rw [List.take_left' hlen, leVal_toBytesLE 2 s.length h, List.drop_left' hlen,
      List.take_left' rfl]
    simp

theorem string_encoding_wire_format_witness :
    [104, 105].length < 65536 ∧
    (InlineEncoderString.encode [104, 105]
        = toBytesLE 2 [104, 105].length ++ [104, 105]
     ∧ (InlineEncoderString.encode [104, 105]).length = 2 + [104, 105].length
     ∧ leVal ((InlineEncoderString.encode [104, 105]).take 2) = [104, 105].length
     ∧ InlineEncoderString.decode (InlineEncoderString.encode [104, 105] ++ [9]) true
         = (some [104, 105], 2 + [104, 105].length)
     ∧ InlineEncoderString.get_payload_length [104, 105] = 2 + [104, 105].length) :=
  ⟨by decide, string_encoding_wire_format [104, 105] [9] (by decide)⟩

/-- C6: when the key type equals the PMNK type, the identity extractor
`NoPrefixing` is picked (`get_pmnk key = key`), the key encoder
degenerates to the zero-width `DummyEncoder`, the payload length of a
pair is the value encoder's length of the value alone, and `encode`
writes only the encoded value. -/
theorem same_type_pmnk_identity_dummy_key {K V : Type} (keyEnc : Encoder K)
    (valEnc : Encoder V) (wK wP k : Nat) (key : K) (value : V) :
    PMNKEncoder.get_pmnk true wK wP k = k
  ∧ CompoundEncoder.ActualKeyEncoder true keyEnc = DummyEncoder K
  ∧ CompoundEncoder.get_payload_length true keyEnc valEnc key value
      = valEnc.get_payload_length value
  ∧ CompoundEncoder.encode true keyEnc valEnc key value = valEnc.encode value := by
  refine ⟨rfl, rfl, ?_, ?_⟩
  · simp [CompoundEncoder.get_payload_length, CompoundEncoder.ActualKeyEncoder,
      DummyEncoder]
  · simp [CompoundEncoder.encode, CompoundEncoder.ActualKeyEncoder, DummyEncoder]

/-- C9: when the key type equals the PMNK type and a key output is
requested, `CompoundEncoder::decode` requires a non-null `pmnk` argument
(which defaults to null): with `pmnk = none` the `assert<1>` fails, and
with `pmnk = some pk` the decoded key is taken verbatim from the PMNK
rather than from the payload bytes, the value being decoded from the
payload as usual. -/
theorem compound_decode_requires_pmnk {K V : Type} (keyEnc : Encoder K)
    (valEnc : Encoder V) (src : List Nat) (wantValue : Bool) :
    CompoundEncoder.decode true keyEnc valEnc src true wantValue none = none
  ∧ ∀ pk : K, CompoundEncoder.decode true keyEnc valEnc src true wantValue (some pk)
      = some (some pk, (valEnc.decode src wantValue).1) := by
  constructor
  · simp [CompoundEncoder.decode, CompoundEncoder.ActualKeyEncoder, DummyEncoder]
  · intro pk
    simp [CompoundEncoder.decode, CompoundEncoder.ActualKeyEncoder, DummyEncoder]

/-- C8: decoding with a null output pointer consumes the instance: for
every type shape and source buffer the end pointer equals the one
returned with a non-null output, and on an encoded instance both are
advanced past the whole encoding.  (In the tuple case the source
allocates a fresh unowned tuple and decodes into it when the caller
passes no output, so the fields are consumed either way.) -/
theorem decode_null_output_same_end :
    (∀ (ty : Ty) (src : List Nat),
      (InlineEncoder.decode ty src false).2 = (InlineEncoder.decode ty src true).2)
  ∧ (∀ (v : Val) (rest : List Nat), validVal v = true →
      (InlineEncoder.decode (tyOf v) (InlineEncoder.encode v ++ rest) false).2
        = (InlineEncoder.encode v).length) := by
  constructor
  · exact fun ty src => decode_snd_independent_of_want ty src
  · intro v rest hv
    rw [decode_snd_independent_of_want, decode_encode v rest hv]

theorem decode_null_output_same_end_witness :
    validVal (Val.tup [Val.scalar 1 5, Val.str [7]]) = true ∧
    (InlineEncoder.decode (tyOf (Val.tup [Val.scalar 1 5, Val.str [7]]))
        (InlineEncoder.encode (Val.tup [Val.scalar 1 5, Val.str [7]]) ++ [3]) false).2
      = (InlineEncoder.encode (Val.tup [Val.scalar 1 5, Val.str [7]])).length :=
  ⟨by simp [validVal, validFields],
   decode_null_output_same_end.2 (Val.tup [Val.scalar 1 5, Val.str [7]]) [3]
     (by simp [validVal, validFields])⟩

/-- C7 (amended): tuple encoding is the in-order concatenation of the
fields' encodings, the encoded length (and the distance the returned end
pointer advances) is the sum of the component lengths (0 for the empty
tuple), and decode with a non-null output recovers every field — the
last point provided every value is representable and every string field
is shorter than `2 ^ 16` bytes, since the 16-bit length header truncates
longer strings. -/
theorem tuple_encoding_concat_sum_roundtrip (fs : List Val) (rest : List Nat) :
    InlineEncoder.encode (Val.tup fs) = (fs.map InlineEncoder.encode).flatten
  ∧ (InlineEncoder.encode (Val.tup fs)).length
      = InlineEncoder.get_payload_length (Val.tup fs)
  ∧ InlineEncoder.get_payload_length (Val.tup fs)
      = (fs.map InlineEncoder.get_payload_length).sum
  ∧ InlineEncoder.get_payload_length (Val.tup []) = 0
  ∧ (validFields fs = true →
      InlineEncoder.decode (tyOf (Val.tup fs))
          (InlineEncoder.encode (Val.tup fs) ++ rest) true
        = (some (Val.tup fs), (InlineEncoder.encode (Val.tup fs)).length)) := by
  refine ⟨?_, encode_length _, ?_, ?_, ?_⟩
  · simp only [InlineEncoder.encode]
    exact encodeFields_flatten fs
  · simp only [InlineEncoder.get_payload_length]
    exact payloadFields_sum fs
  · simp [InlineEncoder.get_payload_length, TupleEncodingHelper.get_payload_length]
  · intro hv
    have hvv : validVal (Val.tup fs) = true := by
      simp only [validVal]
      exact hv
    exact decode_encode (Val.tup fs) rest hvv

/-- C7 counterexample: for a tuple holding a 65536-byte string field, the
`uint16_t` length store truncates the header to 0, so decoding the
encoded bytes does not recover the original tuple — the claim is false
without a bound on string field lengths. -/
theorem tuple_decode_oversize_string_counterexample :
    (InlineEncoder.decode (tyOf (Val.tup [Val.str (List.replicate 65536 7)]))
        (InlineEncoder.encode (Val.tup [Val.str (List.replicate 65536 7)]) ++ []) true).1
      ≠ some (Val.tup [Val.str (List.replicate 65536 7)]) := by
  generalize hs : List.replicate 65536 (7 : Nat) = s
  have hslen : s.length = 65536 := by rw [← hs, List.length_replicate]
  have h2 : toBytesLE 2 s.length = [0, 0] := by rw [hslen]; rfl
  have hty : tyOf (Val.tup [Val.str s]) = Ty.tup [Ty.str] := by
    simp [tyOf, tyOfFields]
  have henc : InlineEncoder.encode (Val.tup [Val.str s]) ++ [] = 0 :: 0 :: s := by
    simp [InlineEncoder.encode, TupleEncodingHelper.encode,
      InlineEncoderString.encode, h2]
  have hdecS : InlineEncoderString.decode (0 :: 0 :: s) true = (some [], 2) := by
    simp [InlineEncoderString.decode, leVal]
  have hdec : InlineEncoder.decode (Ty.tup [Ty.str]) (0 :: 0 :: s) true
      = (some (Val.tup [Val.str []]), 2) := by
    simp [InlineEncoder.decode, TupleEncodingHelper.decode, hdecS]
  rw [hty, henc, hdec]
  intro hEq
  simp only [Option.some.injEq, Val.tup.injEq, List.cons.injEq, Val.str.injEq] at hEq
  have hlen := congrArg List.length hEq.1
  rw [hslen] at hlen
  simp at hlen

theorem tuple_encoding_concat_sum_roundtrip_witness :
    validFields [Val.scalar 2 770, Val.str [3]] = true ∧
    InlineEncoder.decode (tyOf (Val.tup [Val.scalar 2 770, Val.str [3]]))
        (InlineEncoder.encode (Val.tup [Val.scalar 2 770, Val.str [3]]) ++ [5]) true
      = (some (Val.tup [Val.scalar 2 770, Val.str [3]]),
         (InlineEncoder.encode (Val.tup [Val.scalar 2 770, Val.str [3]])).length) :=
  ⟨by simp [validFields, validVal],
   (tuple_encoding_concat_sum_roundtrip [Val.scalar 2 770, Val.str [3]] [5]).2.2.2.2
     (by simp [validFields, validVal])⟩
